import Mathlib

/-!
Verification development for the reseller-tool core pipeline
(`src/reseller_tool/analyzer.py`): title normalization, fuzzy matching,
margin calculation, opportunity scoring and the analysis pipeline.

Python floats are modelled as exact rationals (`ℚ`); Python's `round(x, n)`
(round-half-to-even at the n-th decimal) is modelled by `roundHalfEven`.
Python strings are modelled as `List Char`.
-/

namespace Reseller

/- Batteries marks the arithmetic on `Rat` irreducible; re-enable unfolding
so that concrete computations can be settled by `decide`. -/
attribute [local semireducible] Rat.add Rat.mul Rat.inv Rat.sub Rat.ofScientific

/-- Round-half-to-even of a rational to an integer, the semantics of
Python's builtin `round`. -/
def roundHalfEven (q : ℚ) : ℤ :=
  let f : ℤ := q.floor
  let r : ℚ := q - (f : ℚ)
  if r < 1/2 then f
  else if 1/2 < r then f + 1
  else if f % 2 = 0 then f else f + 1

/-- Model of Python `round(x, 2)`. -/
def round2 (q : ℚ) : ℚ := (roundHalfEven (q * 100) : ℚ) / 100

/-- Model of Python `round(x, 1)`. -/
def round1 (q : ℚ) : ℚ := (roundHalfEven (q * 10) : ℚ) / 10

theorem ratFloor_le (q : ℚ) : (q.floor : ℚ) ≤ q := Rat.le_floor.mp (le_refl _)

theorem lt_ratFloor_add_one (q : ℚ) : q < (q.floor : ℚ) + 1 := by
  by_contra h
  push_neg at h
  have : q.floor + 1 ≤ q.floor := Rat.le_floor.mpr (by push_cast; linarith)
  omega

theorem roundHalfEven_ge (q : ℚ) : q - 1/2 ≤ (roundHalfEven q : ℚ) := by
  unfold roundHalfEven
  have hf : (q.floor : ℚ) ≤ q := ratFloor_le q
  have hf2 : q - 1 < (q.floor : ℚ) := by
    have := lt_ratFloor_add_one q
    linarith
  by_cases h1 : q - (q.floor : ℚ) < 1/2
  · simp only [h1, if_true]
    linarith
  · push_neg at h1
    by_cases h2 : (1:ℚ)/2 < q - (q.floor : ℚ)
    · simp only [if_neg (not_lt.mpr h1), h2, if_true]
      push_cast
      linarith
    · by_cases h3 : q.floor % 2 = 0
      · simp only [if_neg (not_lt.mpr h1), if_neg h2, h3, if_true]
        linarith
      · simp only [if_neg (not_lt.mpr h1), if_neg h2, if_neg h3]
        push_cast
        linarith

theorem roundHalfEven_le (q : ℚ) : (roundHalfEven q : ℚ) ≤ q + 1/2 :=
by
  unfold roundHalfEven
  have hf : (q.floor : ℚ) ≤ q := ratFloor_le q
  by_cases h1 : q - (q.floor : ℚ) < 1/2
  · simp only [h1, if_true]
    linarith
  · push_neg at h1
    by_cases h2 : (1:ℚ)/2 < q - (q.floor : ℚ)
    · simp only [if_neg (not_lt.mpr h1), h2, if_true]
      have : (q.floor : ℚ) > q - 1 := by
        have := lt_ratFloor_add_one q
        linarith
      push_cast
      linarith
    · push_neg at h2
      have heq : q - (q.floor : ℚ) = 1/2 := le_antisymm h2 h1
      by_cases h3 : q.floor % 2 = 0
      · simp only [if_neg (not_lt.mpr h1), if_neg (not_lt.mpr h2), h3, if_true]
        linarith
      · simp only [if_neg (not_lt.mpr h1), if_neg (not_lt.mpr h2), if_neg h3]
        push_cast
        linarith

/-!
Fee constants, `analyzer.py` lines 25-29 (eBay US, 2025-2026).
-/

def EBAY_FINAL_VALUE_FEE : ℚ := 0.1325
def EBAY_PER_ORDER_FEE : ℚ := 0.30
def PAYPAL_FEE_RATE : ℚ := 0.029
def PAYPAL_FIXED_FEE : ℚ := 0.30
def EBAY_PROMOTED_LISTING_FEE : ℚ := 0.03

/-- The dict returned by `calculate_margin` (`analyzer.py` lines 97-105). -/
structure MarginParts where
  ebay_fee : ℚ
  payment_fee : ℚ
  promoted_fee : ℚ
  total_cost : ℚ
  net_profit : ℚ
  margin_pct : ℚ
  roi_pct : ℚ
deriving DecidableEq, Repr

/-- The unrounded intermediate quantities of `calculate_margin`
(`analyzer.py` lines 81-95). -/
def marginRaw (sell_price source_cost shipping_income : ℚ)
    (use_promoted : Bool) : MarginParts :=
  let gross_revenue := sell_price + shipping_income
  let ebay_fee := gross_revenue * EBAY_FINAL_VALUE_FEE + EBAY_PER_ORDER_FEE
  let payment_fee := gross_revenue * PAYPAL_FEE_RATE + PAYPAL_FIXED_FEE
  let promoted_fee :=
    if use_promoted then gross_revenue * EBAY_PROMOTED_LISTING_FEE else 0
  let total_cost := source_cost + ebay_fee + payment_fee + promoted_fee
  let net_profit := gross_revenue - total_cost
  let margin_pct := if gross_revenue > 0 then net_profit / gross_revenue * 100 else 0
  let roi_pct := if source_cost > 0 then net_profit / source_cost * 100 else 0
  ⟨ebay_fee, payment_fee, promoted_fee, total_cost, net_profit, margin_pct, roi_pct⟩

/-- Model of `calculate_margin` (`analyzer.py` lines 64-105): the raw
quantities with each dict entry rounded exactly as in lines 97-105. -/
def calculate_margin (sell_price source_cost shipping_income : ℚ)
    (use_promoted : Bool) : MarginParts :=
  let r := marginRaw sell_price source_cost shipping_income use_promoted
  ⟨round2 r.ebay_fee, round2 r.payment_fee, round2 r.promoted_fee,
   round2 r.total_cost, round2 r.net_profit,
   round1 r.margin_pct, round1 r.roi_pct⟩

/-- Modelled from the spec (§4.3): the `FeeSchedule` configuration record
with the five recognized fields, which the spec says is injected by the
caller.  Present only to compare the spec's interface against the code's
`calculate_margin`, which has no such parameter. -/
structure FeeSchedule where
  platformFeeRate : ℚ
  perOrderFee : ℚ
  paymentFeeRate : ℚ
  paymentFixedFee : ℚ
  promotedFeeRate : ℚ
deriving DecidableEq, Repr

/-- Modelled from the spec (§4.3): `calculateMargin` computed from a
caller-supplied fee schedule, following the spec's pseudocode and its
rounding sentence verbatim. -/
def calculateMarginSpec (fees : FeeSchedule) (sellPrice sourceCost shippingIncome : ℚ)
    (usePromoted : Bool) : MarginParts :=
  let grossRevenue := sellPrice + shippingIncome
  let platformFee := grossRevenue * fees.platformFeeRate + fees.perOrderFee
  let paymentFee := grossRevenue * fees.paymentFeeRate + fees.paymentFixedFee
  let promotedFee := if usePromoted then grossRevenue * fees.promotedFeeRate else 0
  let totalCost := sourceCost + platformFee + paymentFee + promotedFee
  let netProfit := grossRevenue - totalCost
  let marginPct := if grossRevenue > 0 then netProfit / grossRevenue * 100 else 0
  let roiPct := if sourceCost > 0 then netProfit / sourceCost * 100 else 0
  ⟨round2 platformFee, round2 paymentFee, round2 promotedFee,
   round2 totalCost, round2 netProfit, round1 marginPct, round1 roiPct⟩

/-- The fee schedule whose fields are exactly the module-level constants
hard-coded in `analyzer.py` lines 25-29. -/
def hardcodedFees : FeeSchedule :=
  ⟨EBAY_FINAL_VALUE_FEE, EBAY_PER_ORDER_FEE, PAYPAL_FEE_RATE,
   PAYPAL_FIXED_FEE, EBAY_PROMOTED_LISTING_FEE⟩


/-!
Title normalization, `analyzer.py` lines 112-126 (`_normalize_title`).
Python strings are modelled as `List Char`; `str.lower` as `Char.toLower`
(they agree on ASCII); the regex character class `\s` as the six ASCII
whitespace characters.
-/

/-- The ASCII whitespace characters matched by the regex class `\s`. -/
def isWs (c : Char) : Bool :=
  c == ' ' || c == '\t' || c == '\n' || c == '\r' || c == '\x0b' || c == '\x0c'

/-- Characters in the class `[a-z0-9]`. -/
def isLowerAlphaNum (c : Char) : Bool :=
  (97 ≤ c.toNat && c.toNat ≤ 122) || (48 ≤ c.toNat && c.toNat ≤ 57)

/-- Characters kept (not replaced by a space) by `re.sub(r"[^a-z0-9\s]", " ", t)`. -/
def isKeep (c : Char) : Bool := isLowerAlphaNum c || isWs c

/-- Model of `re.sub(r"[^a-z0-9\s]", " ", t)` (`analyzer.py` line 124). -/
def stripSpecial (s : List Char) : List Char :=
  s.map (fun c => if isKeep c then c else ' ')

/-- Model of `re.sub(r"\s+", " ", t)` (`analyzer.py` line 125): every maximal
run of whitespace becomes a single space. -/
def squeezeWs : List Char → List Char
  | [] => []
  | [c] => if isWs c then [' '] else [c]
  | c₁ :: c₂ :: rest =>
      if isWs c₁ && isWs c₂ then squeezeWs (c₂ :: rest)
      else (if isWs c₁ then ' ' else c₁) :: squeezeWs (c₂ :: rest)

/-- Model of Python `str.strip()` restricted to the same whitespace class. -/
def trimWs (s : List Char) : List Char :=
  ((s.dropWhile isWs).reverse.dropWhile isWs).reverse

/-- Model of `re.sub(r"\s+", " ", t).strip()` (`analyzer.py` line 125). -/
def collapseWs (s : List Char) : List Char := trimWs (squeezeWs s)

/-- Model of `str.lower` (`analyzer.py` line 114). -/
def lowerStr (s : List Char) : List Char := s.map Char.toLower

/-- The noise-phrase list of `analyzer.py` lines 116-120, in source order. -/
def noisePhrases : List (List Char) :=
  ["free shipping".toList, "hot sale".toList, "new".toList, "2024".toList,
   "2025".toList, "2026".toList, "high quality".toList, "best".toList,
   "top".toList, "wholesale".toList, "lot".toList, "us stock".toList,
   "fast ship".toList, "usa seller".toList, "brand new".toList,
   "factory".toList, "direct".toList]

/-- Model of Python `str.replace(p, "")`: scan left to right and delete every
non-overlapping occurrence of `p`.  On a match the remaining `p.length - 1`
matched characters are consumed one at a time through the `skip` counter,
keeping the recursion structural on the string. -/
def removeAllGo (p : List Char) : ℕ → List Char → List Char
  | _, [] => []
  | skip+1, _ :: rest => removeAllGo p skip rest
  | 0, c :: rest =>
      if p ≠ [] ∧ p.isPrefixOf (c :: rest)
      then removeAllGo p (p.length - 1) rest
      else c :: removeAllGo p 0 rest

/-- Model of `t.replace(p, "")`. -/
def removeAll (p s : List Char) : List Char := removeAllGo p 0 s

/-- The noise-removal loop of `analyzer.py` lines 121-122. -/
def removeNoise (s : List Char) : List Char :=
  noisePhrases.foldl (fun t w => removeAll w t) s

/-- Model of `_normalize_title` (`analyzer.py` lines 112-126). -/
def normalizeTitle (title : List Char) : List Char :=
  collapseWs (stripSpecial (removeNoise (lowerStr title)))

/-!
Fuzzy matching, `analyzer.py` lines 129-168 (`match_products`), with the
similarity from the `Levenshtein` package: `Levenshtein.ratio(a, b)` is the
normalized indel similarity `(|a| + |b| - d) / (|a| + |b|)` where `d` is the
edit distance with insertions and deletions only (a substitution costs 2),
and two empty strings have ratio 1.
-/

/-- Fuelled insertion/deletion edit distance; the fuel decreases on every
call while each call shrinks `|a| + |b|` by at least one, so
`|a| + |b|` fuel is enough. -/
def indelFuel : ℕ → List Char → List Char → ℕ
  | 0, a, b => a.length + b.length
  | fuel+1, a, b =>
      match a, b with
      | [], b => b.length
      | a, [] => a.length
      | x :: xs, y :: ys =>
          if x == y then indelFuel fuel xs ys
          else 1 + min (indelFuel fuel xs (y :: ys)) (indelFuel fuel (x :: xs) ys)

/-- Insertion/deletion edit distance between two strings. -/
def indelDist (a b : List Char) : ℕ := indelFuel (a.length + b.length) a b

/-- Model of `Levenshtein.ratio` on already-extracted character lists. -/
def ratio (a b : List Char) : ℚ :=
  let ls := a.length + b.length
  if ls = 0 then 1 else ((ls : ℚ) - (indelDist a b : ℚ)) / (ls : ℚ)

/-- The fields of the `EbayProduct` dataclass (`ebay.py`) that the analysis
pipeline reads: title, price, shipping and url.  The remaining fields are
scraper metadata never consulted by `analyzer.py`. -/
structure EbayProduct where
  title : List Char
  price : ℚ
  shipping : ℚ
  url : List Char
deriving DecidableEq, Inhabited, Repr

/-- The fields of the `AliExpressProduct` dataclass (`aliexpress.py`) that the
analysis pipeline reads: title, total_source_cost, orders, rating and url. -/
structure AliExpressProduct where
  title : List Char
  total_source_cost : ℚ
  orders : ℕ
  rating : Option ℚ
  url : List Char
deriving DecidableEq, Inhabited, Repr

/-- Similarity of a normalized sell-side title against a supply-side product,
`analyzer.py` lines 156-157. -/
def simTo (epNorm : List Char) (ap : AliExpressProduct) : ℚ :=
  ratio epNorm (normalizeTitle ap.title)

/-- The `best_match`/`best_idx` state of the inner loop of `match_products`. -/
structure Cand where
  idx : ℕ
  ap : AliExpressProduct
  sim : ℚ
deriving DecidableEq, Repr

/-- The update condition of `analyzer.py` line 159:
`sim >= min_similarity and (best_match is None or sim > best_match[1])`. -/
def betterCand (minSim s : ℚ) : Option Cand → Bool
  | none => decide (minSim ≤ s)
  | some b => decide (minSim ≤ s) && decide (b.sim < s)

/-- The inner loop of `match_products` (`analyzer.py` lines 153-161): scan the
supply list with its index, skip consumed indices, and keep the first
candidate of strictly greatest similarity at or above the threshold.  The
similarity computation of lines 156-157 is the function `simf`, instantiated
with `simTo epNorm` in `scanBest`. -/
def scanBestAux (minSim : ℚ) (simf : AliExpressProduct → ℚ) (used : List ℕ) :
    ℕ → Option Cand → List AliExpressProduct → Option Cand
  | _, best, [] => best
  | i, best, ap :: rest =>
      let best' :=
        if i ∈ used then best
        else if betterCand minSim (simf ap) best
        then some ⟨i, ap, simf ap⟩ else best
      scanBestAux minSim simf used (i+1) best' rest

/-- The inner loop of `match_products`, started like the source:
index 0 and `best_match = None`. -/
def scanBest (minSim : ℚ) (epNorm : List Char) (used : List ℕ)
    (ali : List AliExpressProduct) : Option Cand :=
  scanBestAux minSim (simTo epNorm) used 0 none ali

/-- One element of the list built by `match_products`: the sell-side product,
the claimed supply-side index with its product, and their similarity. -/
structure RawMatch where
  ep : EbayProduct
  aliIdx : ℕ
  ap : AliExpressProduct
  sim : ℚ
deriving DecidableEq, Repr

/-- The outer loop of `match_products` (`analyzer.py` lines 148-165),
carrying the `used_ali` set. -/
def matchLoop (ali : List AliExpressProduct) (minSim : ℚ) :
    List ℕ → List EbayProduct → List RawMatch
  | _, [] => []
  | used, ep :: rest =>
      match scanBest minSim (normalizeTitle ep.title) used ali with
      | none => matchLoop ali minSim used rest
      | some c => ⟨ep, c.idx, c.ap, c.sim⟩ :: matchLoop ali minSim (c.idx :: used) rest

/-- Stable insertion of a match into a similarity-descending list; an earlier
element keeps its place before later elements of equal similarity. -/
def insertBySim (x : RawMatch) : List RawMatch → List RawMatch
  | [] => [x]
  | y :: ys => if y.sim ≤ x.sim then x :: y :: ys else y :: insertBySim x ys

/-- Model of `matches.sort(key=lambda x: x[2], reverse=True)`
(`analyzer.py` line 167): Python's sort is stable, and with `reverse=True`
equal keys keep their original order. -/
def sortBySimDesc (l : List RawMatch) : List RawMatch := l.foldr insertBySim []

/-- Model of `match_products` (`analyzer.py` lines 129-168). -/
def match_products (ebay : List EbayProduct) (ali : List AliExpressProduct)
    (minSim : ℚ) : List RawMatch :=
  sortBySimDesc (matchLoop ali minSim [] ebay)

/-!
Composite scoring, `analyzer.py` lines 235-270 (`score_opportunity`).
-/

/-- Model of `score_opportunity` (`analyzer.py` lines 235-270).  Note that
`(ali_rating or 0)` in Python treats both `None` and `0.0` as 0, which is
`Option.getD 0` on non-negative ratings. -/
def score_opportunity (margin_pct roi_pct : ℚ) (ali_orders : ℕ)
    (ali_rating : Option ℚ) (trend_score : Option ℚ)
    (match_confidence : ℚ) : ℚ :=
  let margin_norm := min (max margin_pct 0) 60 / 60 * 100
  let roi_norm := min (max roi_pct 0) 300 / 300 * 100
  let orders_norm := min ((ali_orders : ℚ) / 500) 1 * 100
  let rating_norm := ali_rating.getD 0 / 5 * 100
  let trend_norm := trend_score.getD 50
  let match_norm := match_confidence * 100
  let score := margin_norm * 0.25 + roi_norm * 0.15 + orders_norm * 0.20
    + rating_norm * 0.10 + trend_norm * 0.20 + match_norm * 0.10
  round1 (min score 100)

/-!
The analysis pipeline, `analyzer.py` lines 277-355 (`analyze_opportunities`).
The Google-Trends call (`get_trend_score`) is network I/O; its result is the
injected `trend : Option ℚ` argument.  The final
`df.sort_values("composite_score", ascending=False)` uses pandas' default
unstable quicksort, whose contract guarantees only some permutation of the
rows that is sorted by the key, so the pipeline is modelled relationally:
`opportunityRows` is the deterministic row list built by the loop of lines
308-350, and `analyzeRel` relates the inputs to any output permutation of it
that is sorted by descending composite score.
-/

/-- One row dict appended at `analyzer.py` lines 330-350. -/
structure OppRow where
  ebay_title : List Char
  ali_title : List Char
  ebay_price : ℚ
  ali_cost : ℚ
  ebay_fee : ℚ
  payment_fee : ℚ
  promoted_fee : ℚ
  net_profit : ℚ
  margin_pct : ℚ
  roi_pct : ℚ
  ali_orders : ℕ
  ali_rating : Option ℚ
  trend_score : Option ℚ
  match_confidence : ℚ
  composite_score : ℚ
  ebay_url : List Char
  ali_url : List Char
deriving DecidableEq, Repr

/-- The loop body of `analyzer.py` lines 309-350 for one matched pair:
compute the margin, drop the pair when the (rounded) net profit is ≤ 0,
otherwise score it and build its row. -/
def buildRow (trend : Option ℚ) (usePromoted : Bool) (m : RawMatch) :
    Option OppRow :=
  let margin := calculate_margin m.ep.price m.ap.total_source_cost
    m.ep.shipping usePromoted
  if margin.net_profit ≤ 0 then none
  else some
    { ebay_title := m.ep.title
      ali_title := m.ap.title
      ebay_price := m.ep.price
      ali_cost := m.ap.total_source_cost
      ebay_fee := margin.ebay_fee
      payment_fee := margin.payment_fee
      promoted_fee := margin.promoted_fee
      net_profit := margin.net_profit
      margin_pct := margin.margin_pct
      roi_pct := margin.roi_pct
      ali_orders := m.ap.orders
      ali_rating := m.ap.rating
      trend_score := trend
      match_confidence := round2 m.sim
      composite_score := score_opportunity margin.margin_pct margin.roi_pct
        m.ap.orders m.ap.rating trend m.sim
      ebay_url := m.ep.url
      ali_url := m.ap.url }

/-- The deterministic row list of `analyze_opportunities` before the final
pandas sort: match, then margin-filter and score each pair in match order. -/
def opportunityRows (ebay : List EbayProduct) (ali : List AliExpressProduct)
    (trend : Option ℚ) (minSim : ℚ) (usePromoted : Bool) : List OppRow :=
  (match_products ebay ali minSim).filterMap (buildRow trend usePromoted)

/-- The rows are in weakly decreasing composite-score order. -/
def SortedByScoreDesc (l : List OppRow) : Prop :=
  l.Chain' (fun a b => b.composite_score ≤ a.composite_score)

/-- Relational model of `analyze_opportunities` (`analyzer.py` lines
277-355): `out` is a possible returned row sequence iff it is a permutation
of the computed rows that is sorted by descending composite score — all that
`df.sort_values("composite_score", ascending=False)` with its default
unstable quicksort guarantees. -/
def analyzeRel (ebay : List EbayProduct) (ali : List AliExpressProduct)
    (trend : Option ℚ) (minSim : ℚ) (usePromoted : Bool)
    (out : List OppRow) : Prop :=
  out.Perm (opportunityRows ebay ali trend minSim usePromoted) ∧
    SortedByScoreDesc out

/-- Insertion step of one concrete score-descending sort of the rows. -/
def insertByScore (x : OppRow) : List OppRow → List OppRow
  | [] => [x]
  | y :: ys =>
      if y.composite_score ≤ x.composite_score then x :: y :: ys
      else y :: insertByScore x ys

/-- One concrete sort of the rows by descending composite score, witnessing
that `analyzeRel` always has at least one possible output. -/
def sortByScoreDesc (l : List OppRow) : List OppRow := l.foldr insertByScore []

/-!
Helper lemmas for the margin calculator.
-/

theorem margin_pct_eq (sp sc si : ℚ) (up : Bool) :
    (calculate_margin sp sc si up).margin_pct =
      round1 (if sp + si > 0 then (marginRaw sp sc si up).net_profit / (sp + si) * 100
              else 0) := rfl

theorem roi_pct_eq (sp sc si : ℚ) (up : Bool) :
    (calculate_margin sp sc si up).roi_pct =
      round1 (if sc > 0 then (marginRaw sp sc si up).net_profit / sc * 100 else 0) := rfl

theorem round1_zero : round1 0 = 0 := by decide

/-- C1 counterexample: on `calculate_margin(24.99, 5.50, 0)` the claimed
output values (totalCost 10.43, netProfit 14.56, marginPct 58.3,
roiPct 264.7) do not all hold; the spec's worked example is miscalculated
(its own fee components 5.50 + 3.61 + 1.02 already sum to 10.13, not
10.43). -/
theorem C1_example_values_counterexample :
    ¬((calculate_margin 24.99 5.50 0 false).ebay_fee = 3.61 ∧
      (calculate_margin 24.99 5.50 0 false).payment_fee = 1.02 ∧
      (calculate_margin 24.99 5.50 0 false).total_cost = 10.43 ∧
      (calculate_margin 24.99 5.50 0 false).net_profit = 14.56 ∧
      (calculate_margin 24.99 5.50 0 false).margin_pct = 58.3 ∧
      (calculate_margin 24.99 5.50 0 false).roi_pct = 264.7) := by decide

/-- C1 (amended): with the hard-coded fee schedule (platform 13.25% + 0.30,
payment 2.9% + 0.30) and no promoted fee,
`calculate_margin(sellPrice=24.99, sourceCost=5.50, shippingIncome=0)`
returns platformFee 3.61, paymentFee 1.02, promotedFee 0, totalCost 10.14,
netProfit 14.85, marginPct 59.4 and roiPct 270.1, with monetary outputs
rounded to 2 decimal places and percentages to 1. -/
theorem C1_example_values :
    calculate_margin 24.99 5.50 0 false =
      ⟨3.61, 1.02, 0, 10.14, 14.85, 59.4, 270.1⟩ := by decide

/-- C2 counterexample: the fee schedule is NOT supplied by the caller — for
the caller-chosen all-zero `FeeSchedule`, the breakdown that schedule
dictates differs from what `calculate_margin` computes at
(24.99, 5.50, 0, no promotion), because the code prices fees from its
hard-coded module constants. -/
theorem C2_caller_schedule_counterexample :
    calculateMarginSpec ⟨0, 0, 0, 0, 0⟩ 24.99 5.50 0 false ≠
      calculate_margin 24.99 5.50 0 false := by decide

/-- C2 (amended): the fee schedule is hard-coded inside the component as the
module constants platformFeeRate 0.1325, perOrderFee 0.30, paymentFeeRate
0.029, paymentFixedFee 0.30 and promotedFeeRate 0.03; `calculate_margin`
takes no fee-schedule argument and always coincides with the
spec-interface calculator applied to exactly that one fixed schedule. -/
theorem C2_fees_hardcoded :
    ∀ (sp sc si : ℚ) (up : Bool),
      calculate_margin sp sc si up = calculateMarginSpec hardcodedFees sp sc si up :=
  fun _ _ _ _ => rfl

/-- C8: `calculate_margin` is total, and its division guards hold: when
gross revenue (sell price + shipping income) is ≤ 0 the margin percentage
is 0, and when source cost is ≤ 0 the ROI percentage is 0. -/
theorem C8_division_guards (sp sc si : ℚ) (up : Bool) :
    (sp + si ≤ 0 → (calculate_margin sp sc si up).margin_pct = 0) ∧
    (sc ≤ 0 → (calculate_margin sp sc si up).roi_pct = 0) := by
  constructor
  · intro h
    rw [margin_pct_eq, if_neg (not_lt.mpr h), round1_zero]
  · intro h
    rw [roi_pct_eq, if_neg (not_lt.mpr h), round1_zero]

/-- C8 witness at sell price 0, source cost 0, shipping 0. -/
theorem C8_division_guards_witness :
    (calculate_margin 0 0 0 false).margin_pct = 0 ∧
    (calculate_margin 0 0 0 false).roi_pct = 0 :=
  ⟨(C8_division_guards 0 0 0 false).1 (by norm_num),
   (C8_division_guards 0 0 0 false).2 (by norm_num)⟩

/-- C10: the profitability filter compares the 2-decimal-rounded net profit
with zero: at sell price 10 against source cost 7.782 the exact net profit
is 0.003 — strictly positive but below 0.005 — so it rounds to 0.00 and the
matched pair (here matched with similarity 1) is excluded from the
pipeline's rows even though its exact net profit is > 0. -/
theorem C10_rounded_profit_filter :
    0 < (marginRaw 10 7.782 0 false).net_profit ∧
    (marginRaw 10 7.782 0 false).net_profit < 5 / 1000 ∧
    (calculate_margin 10 7.782 0 false).net_profit = 0 ∧
    match_products [⟨"widget".toList, 10, 0, []⟩]
        [⟨"widget".toList, 7.782, 0, none, []⟩] 0.4 =
      [⟨⟨"widget".toList, 10, 0, []⟩, 0, ⟨"widget".toList, 7.782, 0, none, []⟩, 1⟩] ∧
    opportunityRows [⟨"widget".toList, 10, 0, []⟩]
        [⟨"widget".toList, 7.782, 0, none, []⟩] none 0.4 false = [] := by decide

/-!
Correctness of the matcher's inner scan (`analyzer.py` lines 153-161) and of
the `used_ali` bookkeeping (lines 146, 163-165).
-/

theorem betterCand_true (minSim s : ℚ) (acc : Option Cand)
    (h : betterCand minSim s acc = true) :
    minSim ≤ s ∧ ∀ b, acc = some b → b.sim < s := by
  cases acc with
  | none =>
      refine ⟨by simpa [betterCand] using h, ?_⟩
      intro b hb
      exact absurd hb (by simp)
  | some b =>
      simp only [betterCand, Bool.and_eq_true, decide_eq_true_eq] at h
      refine ⟨h.1, ?_⟩
      intro b' hb'
      cases hb'
      exact h.2

theorem betterCand_false (minSim s : ℚ) (acc : Option Cand)
    (h : betterCand minSim s acc = false) (hm : minSim ≤ s) :
    ∃ b, acc = some b ∧ s ≤ b.sim := by
  cases acc with
  | none => simp [betterCand, hm] at h
  | some b =>
      simp only [betterCand, Bool.and_eq_false_iff, decide_eq_false_iff_not] at h
      rcases h with h | h
      · exact absurd hm h
      · exact ⟨b, rfl, not_lt.mp h⟩

theorem scanBestAux_spec (minSim : ℚ) (simf : AliExpressProduct → ℚ)
    (used : List ℕ) (l : List AliExpressProduct) :
    ∀ (i : ℕ) (acc : Option Cand), (∀ b, acc = some b → b.idx < i) →
    (scanBestAux minSim simf used i acc l = acc ∨
      ∃ j, j < l.length ∧
        scanBestAux minSim simf used i acc l =
          some ⟨i + j, l.getD j default, simf (l.getD j default)⟩ ∧
        (i + j) ∉ used ∧ minSim ≤ simf (l.getD j default)) ∧
    (∀ b, acc = some b →
      scanBestAux minSim simf used i acc l = acc ∨
      ∃ c, scanBestAux minSim simf used i acc l = some c ∧ b.sim < c.sim) ∧
    (∀ j, j < l.length → (i + j) ∉ used →
      minSim ≤ simf (l.getD j default) →
      ∃ c, scanBestAux minSim simf used i acc l = some c ∧
        (simf (l.getD j default) < c.sim ∨
          (simf (l.getD j default) = c.sim ∧ c.idx ≤ i + j))) := by
  induction l with
  | nil =>
      intro i acc hacc
      refine ⟨Or.inl rfl, fun b _ => Or.inl rfl, ?_⟩
      intro j hj
      exact absurd hj (Nat.not_lt_zero j)
  | cons ap rest ih =>
      intro i acc hacc
      by_cases hiu : i ∈ used
      · -- consumed index: the accumulator is unchanged at this step
        have hstep : scanBestAux minSim simf used i acc (ap :: rest) =
            scanBestAux minSim simf used (i+1) acc rest := by
          simp only [scanBestAux, if_pos hiu]
        have hacc' : ∀ b, acc = some b → b.idx < i + 1 :=
          fun b hb => Nat.lt_succ_of_lt (hacc b hb)
        obtain ⟨A, B, C⟩ := ih (i+1) acc hacc'
        rw [hstep]
        refine ⟨?_, ?_, ?_⟩
        · rcases A with hA | ⟨j, hj, heq, hnu, hms⟩
          · exact Or.inl hA
          · refine Or.inr ⟨j + 1, by simpa using Nat.succ_lt_succ hj, ?_, ?_, ?_⟩
            · have hn : i + (j + 1) = i + 1 + j := by omega
              simpa [List.getD_cons_succ, hn] using heq
            · have hn : i + (j + 1) = i + 1 + j := by omega
              simpa [hn] using hnu
            · simpa [List.getD_cons_succ] using hms
        · exact B
        · intro j hj hnu hms
          match j with
          | 0 => exact absurd hiu (by simpa using hnu)
          | j' + 1 =>
              have hn : i + (j' + 1) = i + 1 + j' := by omega
              have := C j' (by simp only [List.length_cons] at hj; omega)
                (by simpa [hn] using hnu)
                (by simpa [List.getD_cons_succ] using hms)
              rcases this with ⟨c, hc, hdom⟩
              refine ⟨c, hc, ?_⟩
              simpa [List.getD_cons_succ, hn] using hdom
      · by_cases hbc : betterCand minSim (simf ap) acc = true
        · -- this element becomes the new best candidate
          obtain ⟨hms0, hlt0⟩ := betterCand_true _ _ _ hbc
          have hstep : scanBestAux minSim simf used i acc (ap :: rest) =
              scanBestAux minSim simf used (i+1)
                (some ⟨i, ap, simf ap⟩) rest := by
            simp only [scanBestAux, if_neg hiu, hbc, if_true]
          have hacc' : ∀ b, (some (⟨i, ap, simf ap⟩ : Cand)) = some b →
              b.idx < i + 1 := by
            intro b hb
            cases hb
            exact Nat.lt_succ_self i
          obtain ⟨A, B, C⟩ := ih (i+1) (some ⟨i, ap, simf ap⟩) hacc'
          rw [hstep]
          refine ⟨?_, ?_, ?_⟩
          · rcases A with hA | ⟨j, hj, heq, hnu, hms⟩
            · refine Or.inr ⟨0, by simp, ?_, by simpa using hiu, by simpa using hms0⟩
              simpa using hA
            · refine Or.inr ⟨j + 1, by simpa using Nat.succ_lt_succ hj, ?_, ?_, ?_⟩
              · have hn : i + (j + 1) = i + 1 + j := by omega
                simpa [List.getD_cons_succ, hn] using heq
              · have hn : i + (j + 1) = i + 1 + j := by omega
                simpa [hn] using hnu
              · simpa [List.getD_cons_succ] using hms
          · intro b hb
            have hbs : b.sim < simf ap := hlt0 b hb
            rcases B ⟨i, ap, simf ap⟩ rfl with hB | ⟨c, hc, hcs⟩
            · exact Or.inr ⟨⟨i, ap, simf ap⟩, hB, hbs⟩
            · exact Or.inr ⟨c, hc, lt_trans hbs hcs⟩
          · intro j hj hnu hms
            match j with
            | 0 =>
                rcases B ⟨i, ap, simf ap⟩ rfl with hB | ⟨c, hc, hcs⟩
                · refine ⟨⟨i, ap, simf ap⟩, hB, Or.inr ⟨by simp, by simp⟩⟩
                · exact ⟨c, hc, Or.inl (by simpa using hcs)⟩
            | j' + 1 =>
                have hn : i + (j' + 1) = i + 1 + j' := by omega
                have := C j' (by simp only [List.length_cons] at hj; omega)
                  (by simpa [hn] using hnu)
                  (by simpa [List.getD_cons_succ] using hms)
                rcases this with ⟨c, hc, hdom⟩
                refine ⟨c, hc, ?_⟩
                simpa [List.getD_cons_succ, hn] using hdom
        · -- below threshold, or not strictly better: accumulator unchanged
          have hbc' : betterCand minSim (simf ap) acc = false :=
            Bool.eq_false_iff.mpr hbc
          have hstep : scanBestAux minSim simf used i acc (ap :: rest) =
              scanBestAux minSim simf used (i+1) acc rest := by
            simp only [scanBestAux, if_neg hiu, hbc', if_false, Bool.false_eq_true]
          have hacc' : ∀ b, acc = some b → b.idx < i + 1 :=
            fun b hb => Nat.lt_succ_of_lt (hacc b hb)
          obtain ⟨A, B, C⟩ := ih (i+1) acc hacc'
          rw [hstep]
          refine ⟨?_, ?_, ?_⟩
          · rcases A with hA | ⟨j, hj, heq, hnu, hms⟩
            · exact Or.inl hA
            · refine Or.inr ⟨j + 1, by simpa using Nat.succ_lt_succ hj, ?_, ?_, ?_⟩
              · have hn : i + (j + 1) = i + 1 + j := by omega
                simpa [List.getD_cons_succ, hn] using heq
              · have hn : i + (j + 1) = i + 1 + j := by omega
                simpa [hn] using hnu
              · simpa [List.getD_cons_succ] using hms
          · exact B
          · intro j hj hnu hms
            match j with
            | 0 =>
                have hms0 : minSim ≤ simf ap := by simpa using hms
                obtain ⟨b, hb, hsb⟩ := betterCand_false _ _ _ hbc' hms0
                rcases B b hb with hB | ⟨c, hc, hcs⟩
                · rcases lt_or_eq_of_le hsb with hlt | heq
                  · exact ⟨b, by rw [hB, hb], Or.inl (by simpa using hlt)⟩
                  · refine ⟨b, by rw [hB, hb], Or.inr ⟨by simpa using heq, ?_⟩⟩
                    have := hacc b hb
                    omega
                · exact ⟨c, hc, Or.inl (by
                    have : simf ap < c.sim := lt_of_le_of_lt hsb hcs
                    simpa using this)⟩
            | j' + 1 =>
                have hn : i + (j' + 1) = i + 1 + j' := by omega
                have := C j' (by simp only [List.length_cons] at hj; omega)
                  (by simpa [hn] using hnu)
                  (by simpa [List.getD_cons_succ] using hms)
                rcases this with ⟨c, hc, hdom⟩
                refine ⟨c, hc, ?_⟩
                simpa [List.getD_cons_succ, hn] using hdom

/-- Full characterization of the inner scan: a returned candidate is a
not-yet-consumed entry of the supply list whose similarity clears the
threshold, and every other eligible entry has either strictly smaller
similarity or equal similarity and a larger-or-equal index. -/
theorem scanBest_char (minSim : ℚ) (epn : List Char) (used : List ℕ)
    (ali : List AliExpressProduct) (c : Cand)
    (h : scanBest minSim epn used ali = some c) :
    c.idx < ali.length ∧ c.idx ∉ used ∧ c.ap = ali.getD c.idx default ∧
    c.sim = simTo epn c.ap ∧ minSim ≤ c.sim ∧
    (∀ j, j < ali.length → j ∉ used → minSim ≤ simTo epn (ali.getD j default) →
      simTo epn (ali.getD j default) < c.sim ∨
      (simTo epn (ali.getD j default) = c.sim ∧ c.idx ≤ j)) := by
  obtain ⟨A, B, C⟩ :=
    scanBestAux_spec minSim (simTo epn) used ali 0 none (fun b hb => nomatch hb)
  have h' : scanBestAux minSim (simTo epn) used 0 none ali = some c := h
  rcases A with hA | ⟨j, hj, heq, hnu, hms⟩
  · rw [hA] at h'
    exact absurd h' (by simp)
  · rw [heq] at h'
    have hc : c = ⟨0 + j, ali.getD j default, simTo epn (ali.getD j default)⟩ :=
      (Option.some.inj h').symm
    subst hc
    refine ⟨by simpa using hj, by simpa using hnu, by simp, by simp, by simpa using hms, ?_⟩
    intro j' hj' hnu' hms'
    obtain ⟨c', hc', hdom⟩ := C j' hj' (by simpa using hnu') hms'
    rw [heq] at hc'
    have hcc : c' = ⟨0 + j, ali.getD j default, simTo epn (ali.getD j default)⟩ :=
      (Option.some.inj hc').symm
    subst hcc
    rcases hdom with h1 | ⟨h2, h3⟩
    · exact Or.inl h1
    · exact Or.inr ⟨h2, by omega⟩

theorem scanBest_not_used (minSim : ℚ) (epn : List Char) (used : List ℕ)
    (ali : List AliExpressProduct) (c : Cand)
    (h : scanBest minSim epn used ali = some c) : c.idx ∉ used :=
  (scanBest_char minSim epn used ali c h).2.1

/-- The outer matching loop only claims supply indices outside `used`, and the
indices it claims are pairwise distinct. -/
theorem matchLoop_spec (ali : List AliExpressProduct) (minSim : ℚ) :
    ∀ (eps : List EbayProduct) (used : List ℕ),
      (∀ m ∈ matchLoop ali minSim used eps, m.aliIdx ∉ used) ∧
      ((matchLoop ali minSim used eps).map RawMatch.aliIdx).Nodup := by
  intro eps
  induction eps with
  | nil =>
      intro used
      exact ⟨by simp [matchLoop], by simp [matchLoop]⟩
  | cons ep rest ih =>
      intro used
      cases hscan : scanBest minSim (normalizeTitle ep.title) used ali with
      | none =>
          have hstep : matchLoop ali minSim used (ep :: rest) =
              matchLoop ali minSim used rest := by
            simp only [matchLoop, hscan]
          rw [hstep]
          exact ih used
      | some c =>
          have hstep : matchLoop ali minSim used (ep :: rest) =
              ⟨ep, c.idx, c.ap, c.sim⟩ :: matchLoop ali minSim (c.idx :: used) rest := by
            simp only [matchLoop, hscan]
          have hnotused : c.idx ∉ used :=
            scanBest_not_used minSim (normalizeTitle ep.title) used ali c hscan
          obtain ⟨ih1, ih2⟩ := ih (c.idx :: used)
          rw [hstep]
          constructor
          · intro m hm
            rcases List.mem_cons.mp hm with rfl | hm'
            · exact hnotused
            · intro hcon
              exact (ih1 m hm') (List.mem_cons_of_mem _ hcon)
          · simp only [List.map_cons, List.nodup_cons]
            refine ⟨?_, ih2⟩
            intro hmem
            rcases List.mem_map.mp hmem with ⟨m, hm, hidx⟩
            exact (ih1 m hm) (hidx ▸ List.mem_cons_self _ _)

theorem insertBySim_perm (x : RawMatch) (l : List RawMatch) :
    (insertBySim x l).Perm (x :: l) := by
  induction l with
  | nil => exact List.Perm.refl _
  | cons y ys ih =>
      by_cases h : y.sim ≤ x.sim
      · simp only [insertBySim, if_pos h]
        exact List.Perm.refl _
      · simp only [insertBySim, if_neg h]
        exact (ih.cons y).trans (List.Perm.swap x y ys)

theorem sortBySimDesc_perm (l : List RawMatch) : (sortBySimDesc l).Perm l := by
  induction l with
  | nil => exact List.Perm.refl _
  | cons x xs ih =>
      have hstep : sortBySimDesc (x :: xs) = insertBySim x (sortBySimDesc xs) := rfl
      rw [hstep]
      exact (insertBySim_perm x _).trans (ih.cons x)

/-- C5: for every pair of input lists and every threshold, no supply-side
index appears in more than one element of the `match_products` result. -/
theorem C5_supply_index_used_once (ebay : List EbayProduct)
    (ali : List AliExpressProduct) (minSim : ℚ) :
    ((match_products ebay ali minSim).map RawMatch.aliIdx).Nodup := by
  have hperm : (match_products ebay ali minSim).Perm (matchLoop ali minSim [] ebay) :=
    sortBySimDesc_perm _
  exact ((hperm.map RawMatch.aliIdx).symm).nodup ((matchLoop_spec ali minSim ebay []).2)

def sampleAliA : AliExpressProduct := ⟨"gadget".toList, 1, 0, none, []⟩

def sampleAliB : AliExpressProduct := ⟨"gadget".toList, 2, 0, none, []⟩

/-- C9: when the inner scan returns a candidate, that candidate is an
unconsumed supply index meeting the threshold whose similarity is maximal
among all unconsumed threshold-meeting indices, and on similarity ties the
returned index is the smallest (the line-159 comparison requires strictly
greater similarity to replace the current best). -/
theorem C9_ties_pick_smallest_index (minSim : ℚ) (epn : List Char)
    (used : List ℕ) (ali : List AliExpressProduct) (c : Cand)
    (h : scanBest minSim epn used ali = some c) :
    c.idx < ali.length ∧ c.idx ∉ used ∧ c.ap = ali.getD c.idx default ∧
    c.sim = simTo epn c.ap ∧ minSim ≤ c.sim ∧
    (∀ j, j < ali.length → j ∉ used → minSim ≤ simTo epn (ali.getD j default) →
      simTo epn (ali.getD j default) < c.sim ∨
      (simTo epn (ali.getD j default) = c.sim ∧ c.idx ≤ j)) :=
  scanBest_char minSim epn used ali c h

/-- C9 witness: two supply listings with identical titles tie at similarity 1
for the sell-side title "gadget"; the scan returns index 0, and the theorem's
tie clause applied to index 1 yields the tie disjunct with 0 ≤ 1. -/
theorem C9_ties_pick_smallest_index_witness :
    simTo (normalizeTitle "gadget".toList)
        ([sampleAliA, sampleAliB].getD 1 default) < (1 : ℚ) ∨
    (simTo (normalizeTitle "gadget".toList)
        ([sampleAliA, sampleAliB].getD 1 default) = (1 : ℚ) ∧ (0 : ℕ) ≤ 1) :=
  (C9_ties_pick_smallest_index 0.4 (normalizeTitle "gadget".toList) []
      [sampleAliA, sampleAliB] ⟨0, sampleAliA, 1⟩ (by decide)).2.2.2.2.2
    1 (by decide) (by decide) (by decide)

/-!
Bounds for the composite score (`analyzer.py` lines 235-270).
-/

theorem round1_bounds (q : ℚ) (h0 : 0 ≤ q) (h100 : q ≤ 100) :
    0 ≤ round1 q ∧ round1 q ≤ 100 := by
  have hge := roundHalfEven_ge (q * 10)
  have hle := roundHalfEven_le (q * 10)
  have h1 : (-1 : ℚ) < (roundHalfEven (q * 10) : ℚ) := by linarith
  have h2 : (-1 : ℤ) < roundHalfEven (q * 10) := by exact_mod_cast h1
  have h3 : (0 : ℤ) ≤ roundHalfEven (q * 10) := by omega
  have h4 : (roundHalfEven (q * 10) : ℚ) < 1001 := by linarith
  have h5 : roundHalfEven (q * 10) < 1001 := by exact_mod_cast h4
  have h6 : roundHalfEven (q * 10) ≤ 1000 := by omega
  have h3q : (0 : ℚ) ≤ (roundHalfEven (q * 10) : ℚ) := by exact_mod_cast h3
  have h6q : (roundHalfEven (q * 10) : ℚ) ≤ 1000 := by exact_mod_cast h6
  unfold round1
  constructor
  · linarith
  · linarith

theorem score_opportunity_eq (margin_pct roi_pct : ℚ) (ali_orders : ℕ)
    (ali_rating trend_score : Option ℚ) (match_confidence : ℚ) :
    score_opportunity margin_pct roi_pct ali_orders ali_rating trend_score
        match_confidence =
      round1 (min
        (min (max margin_pct 0) 60 / 60 * 100 * 0.25 +
         min (max roi_pct 0) 300 / 300 * 100 * 0.15 +
         min ((ali_orders : ℚ) / 500) 1 * 100 * 0.20 +
         ali_rating.getD 0 / 5 * 100 * 0.10 +
         trend_score.getD 50 * 0.20 +
         match_confidence * 100 * 0.10) 100) := rfl

/-- C6: for all non-negative inputs — margin and ROI values beyond their
saturation caps of 60 and 300 included, order counts beyond 500 included,
and match confidence, rating or trend score beyond their nominal ranges
included — the composite score lies in [0, 100] and is a multiple of one
tenth (rounded to 1 decimal place). -/
theorem C6_score_in_range (margin_pct roi_pct : ℚ) (ali_orders : ℕ)
    (ali_rating trend_score : Option ℚ) (match_confidence : ℚ)
    (hrating : ∀ r, ali_rating = some r → 0 ≤ r)
    (htrend : ∀ t, trend_score = some t → 0 ≤ t)
    (hconf : 0 ≤ match_confidence) :
    0 ≤ score_opportunity margin_pct roi_pct ali_orders ali_rating trend_score
        match_confidence ∧
    score_opportunity margin_pct roi_pct ali_orders ali_rating trend_score
        match_confidence ≤ 100 ∧
    ∃ n : ℤ, score_opportunity margin_pct roi_pct ali_orders ali_rating
        trend_score match_confidence = (n : ℚ) / 10 := by
  have hmn : (0 : ℚ) ≤ min (max margin_pct 0) 60 / 60 * 100 := by
    have h := le_min (le_max_right margin_pct 0) (by norm_num : (0:ℚ) ≤ 60)
    positivity
  have hrn : (0 : ℚ) ≤ min (max roi_pct 0) 300 / 300 * 100 := by
    have h := le_min (le_max_right roi_pct 0) (by norm_num : (0:ℚ) ≤ 300)
    positivity
  have hon : (0 : ℚ) ≤ min ((ali_orders : ℚ) / 500) 1 * 100 := by
    have h : (0 : ℚ) ≤ min ((ali_orders : ℚ) / 500) 1 :=
      le_min (by positivity) (by norm_num)
    positivity
  have hra : (0 : ℚ) ≤ ali_rating.getD 0 / 5 * 100 := by
    have h : (0 : ℚ) ≤ ali_rating.getD 0 := by
      cases hr : ali_rating with
      | none => simp
      | some r => simpa using hrating r hr
    positivity
  have htr : (0 : ℚ) ≤ trend_score.getD 50 := by
    cases ht : trend_score with
    | none => norm_num
    | some t => simpa using htrend t ht
  have hmc : (0 : ℚ) ≤ match_confidence * 100 := by positivity
  rw [score_opportunity_eq]
  have hs0 : (0 : ℚ) ≤ min
      (min (max margin_pct 0) 60 / 60 * 100 * 0.25 +
       min (max roi_pct 0) 300 / 300 * 100 * 0.15 +
       min ((ali_orders : ℚ) / 500) 1 * 100 * 0.20 +
       ali_rating.getD 0 / 5 * 100 * 0.10 +
       trend_score.getD 50 * 0.20 +
       match_confidence * 100 * 0.10) 100 := by
    refine le_min ?_ (by norm_num)
    nlinarith [hmn, hrn, hon, hra, htr, hmc]
  have hs100 : min
      (min (max margin_pct 0) 60 / 60 * 100 * 0.25 +
       min (max roi_pct 0) 300 / 300 * 100 * 0.15 +
       min ((ali_orders : ℚ) / 500) 1 * 100 * 0.20 +
       ali_rating.getD 0 / 5 * 100 * 0.10 +
       trend_score.getD 50 * 0.20 +
       match_confidence * 100 * 0.10) 100 ≤ 100 := min_le_right _ _
  obtain ⟨hb0, hb100⟩ := round1_bounds _ hs0 hs100
  exact ⟨hb0, hb100, ⟨roundHalfEven (_ * 10), rfl⟩⟩

/-- C6 witness at out-of-range inputs: margin 70 (> 60), ROI 400 (> 300),
1000 orders (> 500), rating 6 (> 5), trend 150 (> 100) and confidence 2
(> 1); the score saturates inside [0, 100]. -/
theorem C6_score_in_range_witness :
    0 ≤ score_opportunity 70 400 1000 (some 6) (some 150) 2 ∧
    score_opportunity 70 400 1000 (some 6) (some 150) 2 ≤ 100 ∧
    ∃ n : ℤ, score_opportunity 70 400 1000 (some 6) (some 150) 2 = (n : ℚ) / 10 :=
  C6_score_in_range 70 400 1000 (some 6) (some 150) 2
    (fun r hr => by cases hr; norm_num)
    (fun t ht => by cases ht; norm_num)
    (by norm_num)

/-!
Pipeline lemmas: profitability of surviving rows, empty-input behaviour,
and sortedness of the output (`analyzer.py` lines 277-355).
-/

theorem buildRow_net_profit_pos (trend : Option ℚ) (usePromoted : Bool)
    (m : RawMatch) (row : OppRow)
    (h : buildRow trend usePromoted m = some row) : 0 < row.net_profit := by
  simp only [buildRow] at h
  by_cases hc : (calculate_margin m.ep.price m.ap.total_source_cost
      m.ep.shipping usePromoted).net_profit ≤ 0
  · rw [if_pos hc] at h
    exact absurd h (by simp)
  · rw [if_neg hc] at h
    have hr := Option.some.inj h
    subst hr
    exact not_le.mp hc

theorem matchLoop_nil_ali (minSim : ℚ) :
    ∀ (eps : List EbayProduct) (used : List ℕ),
      matchLoop [] minSim used eps = [] := by
  intro eps
  induction eps with
  | nil => intro used; rfl
  | cons ep rest ih =>
      intro used
      have hscan : scanBest minSim (normalizeTitle ep.title) used [] = none := rfl
      simp only [matchLoop, hscan]
      exact ih used

/-- C7: every row of any possible `analyze_opportunities` output has positive
(rounded) net profit, and the no-match / no-profitable-pair cases — in
particular an empty sell-side or supply-side input — yield the empty
sequence rather than an error. -/
theorem C7_positive_rows_empty_ok (ebay : List EbayProduct)
    (ali : List AliExpressProduct) (trend : Option ℚ) (minSim : ℚ)
    (usePromoted : Bool) (out : List OppRow)
    (h : analyzeRel ebay ali trend minSim usePromoted out) :
    (∀ row ∈ out, 0 < row.net_profit) ∧
    (opportunityRows ebay ali trend minSim usePromoted = [] → out = []) ∧
    (ebay = [] → out = []) ∧
    (ali = [] → out = []) := by
  obtain ⟨hperm, _⟩ := h
  have hempty : opportunityRows ebay ali trend minSim usePromoted = [] →
      out = [] := by
    intro hrows
    rw [hrows] at hperm
    exact hperm.eq_nil
  refine ⟨?_, hempty, ?_, ?_⟩
  · intro row hrow
    have hmem : row ∈ opportunityRows ebay ali trend minSim usePromoted :=
      hperm.mem_iff.mp hrow
    obtain ⟨m, _, hbr⟩ := List.mem_filterMap.mp hmem
    exact buildRow_net_profit_pos trend usePromoted m row hbr
  · intro hE
    subst hE
    exact hempty rfl
  · intro hA
    subst hA
    refine hempty ?_
    simp only [opportunityRows, match_products, matchLoop_nil_ali]
    rfl

/-- C7 witness: an empty sell-side list with a non-empty supply list and the
empty output satisfies the pipeline relation, and the theorem's empty-input
clause applies to it. -/
theorem C7_positive_rows_empty_ok_witness : ([] : List OppRow) = [] :=
  (C7_positive_rows_empty_ok [] [sampleAliA] none 0.4 false []
    ⟨List.Perm.refl _, List.chain'_nil⟩).2.2.1 rfl

theorem insertByScore_perm (x : OppRow) (l : List OppRow) :
    (insertByScore x l).Perm (x :: l) := by
  induction l with
  | nil => exact List.Perm.refl _
  | cons y ys ih =>
      by_cases h : y.composite_score ≤ x.composite_score
      · simp only [insertByScore, if_pos h]
        exact List.Perm.refl _
      · simp only [insertByScore, if_neg h]
        exact (ih.cons y).trans (List.Perm.swap x y ys)

theorem insertByScore_head (x : OppRow) (l : List OppRow) :
    (insertByScore x l).head? = some x ∨ (insertByScore x l).head? = l.head? := by
  cases l with
  | nil => exact Or.inl rfl
  | cons y ys =>
      by_cases h : y.composite_score ≤ x.composite_score
      · simp only [insertByScore, if_pos h]
        exact Or.inl rfl
      · simp only [insertByScore, if_neg h]
        exact Or.inr rfl

theorem insertByScore_sorted (x : OppRow) (l : List OppRow)
    (h : SortedByScoreDesc l) : SortedByScoreDesc (insertByScore x l) := by
  induction l with
  | nil => exact List.chain'_singleton x
  | cons y ys ih =>
      by_cases hc : y.composite_score ≤ x.composite_score
      · simp only [insertByScore, if_pos hc]
        exact List.chain'_cons.mpr ⟨hc, h⟩
      · simp only [insertByScore, if_neg hc]
        obtain ⟨hhead, htail⟩ := List.chain'_cons'.mp h
        refine List.chain'_cons'.mpr ⟨?_, ih htail⟩
        intro z hz
        rcases insertByScore_head x ys with hx | hys
        · rw [hx] at hz
          cases hz
          exact le_of_lt (not_le.mp hc)
        · rw [hys] at hz
          exact hhead z hz

theorem sortByScoreDesc_perm (l : List OppRow) : (sortByScoreDesc l).Perm l := by
  induction l with
  | nil => exact List.Perm.refl _
  | cons x xs ih =>
      have hstep : sortByScoreDesc (x :: xs) = insertByScore x (sortByScoreDesc xs) := rfl
      rw [hstep]
      exact (insertByScore_perm x _).trans (ih.cons x)

theorem sortByScoreDesc_sorted (l : List OppRow) :
    SortedByScoreDesc (sortByScoreDesc l) := by
  induction l with
  | nil => exact List.chain'_nil
  | cons x xs ih => exact insertByScore_sorted x (sortByScoreDesc xs) ih

/-- The ordering the claim asserts: descending composite score with ties
broken by descending net profit. -/
def TieBreakByNetProfit (l : List OppRow) : Prop :=
  l.Chain' (fun a b => b.composite_score < a.composite_score ∨
    (b.composite_score = a.composite_score ∧ b.net_profit ≤ a.net_profit))

/-- Executable check for `Chain'` on opportunity rows, used to settle
concrete instances by kernel computation. -/
def chainChk (p : OppRow → OppRow → Bool) : List OppRow → Bool
  | [] => true
  | [_] => true
  | a :: b :: rest => p a b && chainChk p (b :: rest)

theorem chainChk_iff (p : OppRow → OppRow → Bool) :
    ∀ l, chainChk p l = true ↔ l.Chain' (fun a b => p a b = true)
  | [] => by simp [chainChk]
  | [x] => by simp [chainChk]
  | a :: b :: rest => by
      rw [List.chain'_cons]
      simp only [chainChk, Bool.and_eq_true, chainChk_iff p (b :: rest)]

theorem sortedByScoreDesc_of_chk (l : List OppRow)
    (h : chainChk (fun a b => decide (b.composite_score ≤ a.composite_score)) l
      = true) : SortedByScoreDesc l := by
  have hc := (chainChk_iff _ l).mp h
  exact hc.imp (fun a b hab => of_decide_eq_true hab)

theorem not_tieBreak_of_chk (l : List OppRow)
    (h : chainChk (fun a b => decide (b.composite_score < a.composite_score) ||
        (decide (b.composite_score = a.composite_score) &&
         decide (b.net_profit ≤ a.net_profit))) l = false) :
    ¬ TieBreakByNetProfit l := by
  intro hT
  have ht : chainChk (fun a b => decide (b.composite_score < a.composite_score) ||
      (decide (b.composite_score = a.composite_score) &&
       decide (b.net_profit ≤ a.net_profit))) l = true := by
    refine (chainChk_iff _ l).mpr ?_
    refine hT.imp ?_
    intro a b hab
    rcases hab with h1 | ⟨h2, h3⟩
    · simp [h1]
    · simp [h2, h3]
  rw [h] at ht
  exact absurd ht (by simp)

/-- C3 (amended): a valid `analyze_opportunities` output always exists — any
score-descending permutation of the rows, e.g. the one produced by
`sortByScoreDesc` — and every valid output is sorted by descending composite
score.  The order among rows of equal score is implementation-defined by
pandas' unstable default quicksort; neither a net-profit tiebreak nor
input-order stability is guaranteed. -/
theorem C3_sorted_by_composite_score (ebay : List EbayProduct)
    (ali : List AliExpressProduct) (trend : Option ℚ) (minSim : ℚ)
    (usePromoted : Bool) :
    analyzeRel ebay ali trend minSim usePromoted
      (sortByScoreDesc (opportunityRows ebay ali trend minSim usePromoted)) ∧
    ∀ out, analyzeRel ebay ali trend minSim usePromoted out →
      SortedByScoreDesc out :=
  ⟨⟨sortByScoreDesc_perm _, sortByScoreDesc_sorted _⟩, fun _ h => h.2⟩

/-- C3 witness: on a one-pair input the relation holds of the computed rows
and yields their sortedness. -/
theorem C3_sorted_by_composite_score_witness :
    SortedByScoreDesc (opportunityRows [⟨"widget".toList, 10, 0, []⟩]
      [⟨"widget".toList, 1, 0, none, []⟩] none 0.4 false) :=
  (C3_sorted_by_composite_score [⟨"widget".toList, 10, 0, []⟩]
      [⟨"widget".toList, 1, 0, none, []⟩] none 0.4 false).2
    (opportunityRows [⟨"widget".toList, 10, 0, []⟩]
      [⟨"widget".toList, 1, 0, none, []⟩] none 0.4 false)
    ⟨List.Perm.refl _, sortedByScoreDesc_of_chk _ (by decide)⟩

/-- Sell-side and supply-side inputs producing two opportunity rows that tie
at composite score 60.0 while their net profits differ. -/
def tieEbayA : EbayProduct := ⟨"widget alpha".toList, 1000, 0, []⟩

def tieEbayB : EbayProduct := ⟨"widget beta".toList, 1000.01, 0, []⟩

def tieAliA : AliExpressProduct := ⟨"widget alpha".toList, 100, 0, none, []⟩

def tieAliB : AliExpressProduct := ⟨"widget beta".toList, 100, 0, none, []⟩

/-- C3 counterexample: on the tie input the row list itself (scores 60.0 and
60.0, net profits 737.9 then 737.91 in that order) is a valid
`analyze_opportunities` output — it is a score-sorted permutation of the
rows — yet it violates the claimed descending-net-profit tiebreak, so the
claimed ordering does not hold of every valid output. -/
theorem C3_tiebreak_counterexample :
    analyzeRel [tieEbayA, tieEbayB] [tieAliA, tieAliB] none 0.4 false
      (opportunityRows [tieEbayA, tieEbayB] [tieAliA, tieAliB] none 0.4 false) ∧
    ¬ TieBreakByNetProfit
      (opportunityRows [tieEbayA, tieEbayB] [tieAliA, tieAliB] none 0.4 false) :=
  ⟨⟨List.Perm.refl _, sortedByScoreDesc_of_chk _ (by decide)⟩,
   not_tieBreak_of_chk _ (by decide)⟩

/-!
Canonicity of `_normalize_title` output.  A normalized title consists only
of characters in `[a-z0-9 ]`, with no two adjacent whitespace characters and
no leading or trailing whitespace.  On such strings the lower-casing,
special-character stripping and whitespace collapsing passes are all
identities, which yields idempotence of the normalizer whenever the
noise-removal pass also leaves its output unchanged.
-/

/-- No two adjacent whitespace characters. -/
def NoWsPair (a b : Char) : Prop := ¬(isWs a = true ∧ isWs b = true)

theorem mapIdOfMem (f : Char → Char) (l : List Char)
    (h : ∀ c ∈ l, f c = c) : l.map f = l := by
  induction l with
  | nil => rfl
  | cons a t ih =>
      simp only [List.map_cons, h a (List.mem_cons_self _ _),
        ih (fun c hc => h c (List.mem_cons_of_mem _ hc))]

theorem revSuffixToFront (l₁ l₂ : List Char) (h : l₁ <:+ l₂) :
    l₁.reverse <+: l₂.reverse := by
  obtain ⟨t, rfl⟩ := h
  exact ⟨t.reverse, by simp⟩

theorem headOfPre (l₁ l₂ : List Char) (h : l₁ <+: l₂) (c : Char)
    (hc : l₁.head? = some c) : l₂.head? = some c := by
  obtain ⟨t, rfl⟩ := h
  cases l₁ with
  | nil => simp at hc
  | cons a u => simpa using hc

theorem dropWhile_eq_self (p : Char → Bool) (l : List Char)
    (h : ∀ c, l.head? = some c → p c = false) : l.dropWhile p = l := by
  cases l with
  | nil => rfl
  | cons a t => simp [List.dropWhile_cons, h a rfl]

theorem head_of_dropWhile (p : Char → Bool) (l : List Char) :
    ∀ c, (l.dropWhile p).head? = some c → p c = false := by
  induction l with
  | nil => intro c hc; simp at hc
  | cons a t ih =>
      intro c hc
      by_cases hp : p a = true
      · rw [List.dropWhile_cons, if_pos hp] at hc
        exact ih c hc
      · rw [List.dropWhile_cons, if_neg hp] at hc
        have : a = c := by simpa using hc
        rw [← this]
        exact Bool.eq_false_iff.mpr hp

theorem squeezeWs_mem (t : List Char) :
    ∀ c ∈ squeezeWs t, c = ' ' ∨ (c ∈ t ∧ isWs c = false) := by
  induction t with
  | nil => intro c hc; simp [squeezeWs] at hc
  | cons c1 rest ih =>
      cases rest with
      | nil =>
          intro c hc
          by_cases h1 : isWs c1 = true
          · rw [show squeezeWs [c1] = [' '] from by simp [squeezeWs, h1]] at hc
            exact Or.inl (by simpa using hc)
          · rw [show squeezeWs [c1] = [c1] from by simp [squeezeWs, h1]] at hc
            have hc' : c = c1 := by simpa using hc
            exact Or.inr ⟨hc' ▸ List.mem_cons_self _ _,
              hc' ▸ Bool.eq_false_iff.mpr h1⟩
      | cons c2 rest' =>
          intro c hc
          by_cases h12 : (isWs c1 && isWs c2) = true
          · rw [show squeezeWs (c1 :: c2 :: rest') = squeezeWs (c2 :: rest') from
              by simp [squeezeWs, h12]] at hc
            rcases ih c hc with h | ⟨hm, hw⟩
            · exact Or.inl h
            · exact Or.inr ⟨List.mem_cons_of_mem _ hm, hw⟩
          · rw [show squeezeWs (c1 :: c2 :: rest') =
                (if isWs c1 then ' ' else c1) :: squeezeWs (c2 :: rest') from
              by simp [squeezeWs, h12]] at hc
            by_cases h1 : isWs c1 = true
            · rw [if_pos h1] at hc
              rcases List.mem_cons.mp hc with rfl | hc'
              · exact Or.inl rfl
              · rcases ih c hc' with h | ⟨hm, hw⟩
                · exact Or.inl h
                · exact Or.inr ⟨List.mem_cons_of_mem _ hm, hw⟩
            · rw [if_neg h1] at hc
              rcases List.mem_cons.mp hc with rfl | hc'
              · exact Or.inr ⟨List.mem_cons_self _ _, Bool.eq_false_iff.mpr h1⟩
              · rcases ih c hc' with h | ⟨hm, hw⟩
                · exact Or.inl h
                · exact Or.inr ⟨List.mem_cons_of_mem _ hm, hw⟩

theorem squeezeWs_head (c : Char) (rest : List Char) (h : isWs c = false) :
    (squeezeWs (c :: rest)).head? = some c := by
  cases rest with
  | nil => simp [squeezeWs, h]
  | cons c2 rest' => simp [squeezeWs, h]

theorem squeezeWs_chain (t : List Char) : (squeezeWs t).Chain' NoWsPair := by
  induction t with
  | nil => exact List.chain'_nil
  | cons c1 rest ih =>
      cases rest with
      | nil =>
          by_cases h1 : isWs c1 = true
          · rw [show squeezeWs [c1] = [' '] from by simp [squeezeWs, h1]]
            exact List.chain'_singleton _
          · rw [show squeezeWs [c1] = [c1] from by simp [squeezeWs, h1]]
            exact List.chain'_singleton _
      | cons c2 rest' =>
          by_cases h12 : (isWs c1 && isWs c2) = true
          · rw [show squeezeWs (c1 :: c2 :: rest') = squeezeWs (c2 :: rest') from
              by simp [squeezeWs, h12]]
            exact ih
          · rw [show squeezeWs (c1 :: c2 :: rest') =
                (if isWs c1 then ' ' else c1) :: squeezeWs (c2 :: rest') from
              by simp [squeezeWs, h12]]
            refine List.chain'_cons'.mpr ⟨?_, ih⟩
            intro z hz
            by_cases h1 : isWs c1 = true
            · have h2 : isWs c2 = false := by
                rcases Bool.and_eq_false_iff.mp (Bool.eq_false_iff.mpr h12) with h | h
                · rw [h1] at h
                  exact absurd h (by simp)
                · exact h
              have hz' := Option.mem_some_iff.mp (by
                rw [squeezeWs_head c2 rest' h2] at hz
                exact hz)
              subst hz'
              rw [if_pos h1]
              intro hcon
              exact absurd hcon.2 (by simp [h2])
            · rw [if_neg h1]
              intro hcon
              exact h1 hcon.1

theorem squeezeWs_fixed (y : List Char)
    (hsp : ∀ c ∈ y, isWs c = true → c = ' ')
    (hch : y.Chain' NoWsPair) : squeezeWs y = y := by
  induction y with
  | nil => rfl
  | cons c1 rest ih =>
      cases rest with
      | nil =>
          by_cases h1 : isWs c1 = true
          · have hc1 : c1 = ' ' := hsp c1 (List.mem_cons_self _ _) h1
            subst hc1
            decide
          · simp [squeezeWs, h1]
      | cons c2 rest' =>
          obtain ⟨hpair, hch'⟩ := List.chain'_cons.mp hch
          have h12 : (isWs c1 && isWs c2) = false := by
            by_contra hcon
            have h' : isWs c1 = true ∧ isWs c2 = true := by
              simpa using Bool.ne_false_iff.mp hcon
            exact hpair h'
          have ihres := ih (fun c hc hw => hsp c (List.mem_cons_of_mem _ hc) hw) hch'
          rw [show squeezeWs (c1 :: c2 :: rest') =
              (if isWs c1 then ' ' else c1) :: squeezeWs (c2 :: rest') from
            by simp [squeezeWs, h12]]
          rw [ihres]
          congr 1
          by_cases h1 : isWs c1 = true
          · rw [if_pos h1]
            exact (hsp c1 (List.mem_cons_self _ _) h1).symm
          · rw [if_neg h1]

theorem trimWs_subset (s : List Char) : ∀ c ∈ trimWs s, c ∈ s := by
  intro c hc
  unfold trimWs at hc
  rw [List.mem_reverse] at hc
  have h1 : c ∈ (s.dropWhile isWs).reverse :=
    (List.dropWhile_suffix isWs).sublist.subset hc
  rw [List.mem_reverse] at h1
  exact (List.dropWhile_suffix isWs).sublist.subset h1

theorem trimWs_head (s : List Char) :
    ∀ c, (trimWs s).head? = some c → isWs c = false := by
  intro c hc
  have hsuf : (s.dropWhile isWs).reverse.dropWhile isWs <:+ (s.dropWhile isWs).reverse :=
    List.dropWhile_suffix isWs
  have hpre : trimWs s <+: s.dropWhile isWs := by
    have h2 := revSuffixToFront _ _ hsuf
    simpa [trimWs] using h2
  have hcv : (s.dropWhile isWs).head? = some c := headOfPre _ _ hpre c hc
  exact head_of_dropWhile isWs s c hcv

theorem trimWs_last (s : List Char) :
    ∀ c, (trimWs s).getLast? = some c → isWs c = false := by
  intro c hc
  unfold trimWs at hc
  rw [List.getLast?_reverse] at hc
  exact head_of_dropWhile isWs _ c hc

theorem trimWs_chain (s : List Char) (h : s.Chain' NoWsPair) :
    (trimWs s).Chain' NoWsPair := by
  have hsymm : ∀ a b : Char, NoWsPair a b → NoWsPair b a :=
    fun a b hab ⟨x, y⟩ => hab ⟨y, x⟩
  have h1 : (s.dropWhile isWs).Chain' NoWsPair :=
    h.suffix (List.dropWhile_suffix _)
  have h2 : ((s.dropWhile isWs).reverse).Chain' NoWsPair := by
    rw [List.chain'_reverse]
    exact h1.imp (fun a b hab => hsymm a b hab)
  have h3 : ((s.dropWhile isWs).reverse.dropWhile isWs).Chain' NoWsPair :=
    h2.suffix (List.dropWhile_suffix _)
  unfold trimWs
  rw [List.chain'_reverse]
  exact h3.imp (fun a b hab => hsymm a b hab)

theorem trimWs_fixed (y : List Char)
    (hhead : ∀ c, y.head? = some c → isWs c = false)
    (hlast : ∀ c, y.getLast? = some c → isWs c = false) : trimWs y = y := by
  unfold trimWs
  rw [dropWhile_eq_self isWs y hhead]
  rw [dropWhile_eq_self isWs y.reverse
    (fun c hc => hlast c (by rwa [List.head?_reverse] at hc))]
  exact List.reverse_reverse y

theorem stripSpecial_mem (t : List Char) :
    ∀ c ∈ stripSpecial t, isKeep c = true := by
  intro c hc
  obtain ⟨d, _, hd⟩ := List.mem_map.mp hc
  by_cases h : isKeep d = true
  · rw [if_pos h] at hd
    exact hd ▸ h
  · rw [if_neg h] at hd
    rw [← hd]
    decide

theorem stripSpecial_fixed (y : List Char) (h : ∀ c ∈ y, isKeep c = true) :
    stripSpecial y = y :=
  mapIdOfMem _ y (fun c hc => by rw [if_pos (h c hc)])

theorem toLower_id_of (c : Char) (hk : isKeep c = true)
    (hs : isWs c = true → c = ' ') : Char.toLower c = c := by
  have hk' : isLowerAlphaNum c = true ∨ isWs c = true := by
    simpa [isKeep] using hk
  rcases hk' with halnum | hws
  · have hn : (97 ≤ c.toNat ∧ c.toNat ≤ 122) ∨ (48 ≤ c.toNat ∧ c.toNat ≤ 57) := by
      simpa [isLowerAlphaNum, Bool.or_eq_true, Bool.and_eq_true,
        decide_eq_true_eq] using halnum
    show (if c.toNat ≥ 65 ∧ c.toNat ≤ 90 then Char.ofNat (c.toNat + 32) else c) = c
    rw [if_neg (by omega)]
  · have hc : c = ' ' := hs hws
    subst hc
    decide

theorem lowerStr_fixed (y : List Char) (hk : ∀ c ∈ y, isKeep c = true)
    (hs : ∀ c ∈ y, isWs c = true → c = ' ') : lowerStr y = y :=
  mapIdOfMem _ y (fun c hc => toLower_id_of c (hk c hc) (hs c hc))

/-- Canonicity of `collapseWs (stripSpecial t)`, the shape of every
`_normalize_title` output. -/
theorem collapse_strip_canon (t : List Char) :
    (∀ c ∈ collapseWs (stripSpecial t), isKeep c = true) ∧
    (∀ c ∈ collapseWs (stripSpecial t), isWs c = true → c = ' ') ∧
    (collapseWs (stripSpecial t)).Chain' NoWsPair ∧
    (∀ c, (collapseWs (stripSpecial t)).head? = some c → isWs c = false) ∧
    (∀ c, (collapseWs (stripSpecial t)).getLast? = some c → isWs c = false) := by
  have hmem : ∀ c ∈ collapseWs (stripSpecial t),
      c = ' ' ∨ (c ∈ stripSpecial t ∧ isWs c = false) := by
    intro c hc
    exact squeezeWs_mem (stripSpecial t) c (trimWs_subset _ c hc)
  refine ⟨?_, ?_, ?_, trimWs_head _, trimWs_last _⟩
  · intro c hc
    rcases hmem c hc with rfl | ⟨hm, _⟩
    · decide
    · exact stripSpecial_mem t c hm
  · intro c hc hw
    rcases hmem c hc with rfl | ⟨_, hw'⟩
    · rfl
    · rw [hw] at hw'
      exact absurd hw' (by simp)
  · exact trimWs_chain _ (squeezeWs_chain _)

theorem collapseWs_fixed (y : List Char)
    (hs : ∀ c ∈ y, isWs c = true → c = ' ') (hch : y.Chain' NoWsPair)
    (hh : ∀ c, y.head? = some c → isWs c = false)
    (hl : ∀ c, y.getLast? = some c → isWs c = false) : collapseWs y = y := by
  unfold collapseWs
  rw [squeezeWs_fixed y hs hch]
  exact trimWs_fixed y hh hl

/-- C4 counterexample: `_normalize_title` is NOT idempotent.  On the input
"free  shipping" (two spaces) the noise phrase "free shipping" is not yet a
substring, but whitespace collapsing creates it, so the first pass returns
"free shipping" and the second pass removes it entirely, returning "". -/
theorem C4_idempotent_counterexample :
    normalizeTitle (normalizeTitle "free  shipping".toList) ≠
      normalizeTitle "free  shipping".toList := by decide

theorem normalizeTitle_nil : normalizeTitle [] = [] := rfl

section NormalizeAbstract

/- In the abstract idempotence argument nothing below `normalizeTitle` ever
needs to be unfolded; keeping the passes folded prevents the elaborator from
descending into the noise-phrase scanner. -/
attribute [local irreducible] removeAll removeNoise lowerStr stripSpecial
  squeezeWs trimWs collapseWs

/-- Canonicity facts restated for `normalizeTitle` itself. -/
theorem normalizeTitle_canon (s : List Char) :
    (∀ c ∈ normalizeTitle s, isKeep c = true) ∧
    (∀ c ∈ normalizeTitle s, isWs c = true → c = ' ') ∧
    (normalizeTitle s).Chain' NoWsPair ∧
    (∀ c, (normalizeTitle s).head? = some c → isWs c = false) ∧
    (∀ c, (normalizeTitle s).getLast? = some c → isWs c = false) :=
  collapse_strip_canon (removeNoise (lowerStr s))

set_option linter.constructorNameAsVariable false in
/-- C4 (amended): `_normalize_title` is a total function and maps the empty
string to the empty string; it is idempotent on every input whose normalized
form is left unchanged by the noise-phrase removal pass (but not on inputs
whose normalization creates a noise phrase, see the counterexample). -/
theorem C4_normalize_conditionally_idempotent :
    normalizeTitle [] = [] ∧
    ∀ s : List Char, removeNoise (normalizeTitle s) = normalizeTitle s →
      normalizeTitle (normalizeTitle s) = normalizeTitle s := by
  refine ⟨normalizeTitle_nil, ?_⟩
  intro s h
  obtain ⟨hk, hsp, hch, hhd, hlt⟩ := normalizeTitle_canon s
  have e1 : lowerStr (normalizeTitle s) = normalizeTitle s :=
    lowerStr_fixed (normalizeTitle s) hk hsp
  have e3 : stripSpecial (normalizeTitle s) = normalizeTitle s :=
    stripSpecial_fixed (normalizeTitle s) hk
  have e4 : collapseWs (normalizeTitle s) = normalizeTitle s :=
    collapseWs_fixed (normalizeTitle s) hsp hch hhd hlt
  calc normalizeTitle (normalizeTitle s)
      = collapseWs (stripSpecial (removeNoise (lowerStr (normalizeTitle s)))) := rfl
    _ = collapseWs (stripSpecial (removeNoise (normalizeTitle s))) := by rw [e1]
    _ = collapseWs (stripSpecial (normalizeTitle s)) := by rw [h]
    _ = collapseWs (normalizeTitle s) := by rw [e3]
    _ = normalizeTitle s := e4

end NormalizeAbstract

/-- C4 witness: the single character "a" normalizes to itself and the
noise-removal pass leaves it unchanged, so the amended idempotence applies. -/
theorem C4_normalize_conditionally_idempotent_witness :
    normalizeTitle (normalizeTitle ['a']) = normalizeTitle ['a'] :=
  C4_normalize_conditionally_idempotent.2 ['a'] (by decide)

end Reseller
